import Mathlib

/-!
Shallow embedding of the GOLD aggregation pipeline
(`scripts/aggregate_gold.py` and `scripts/build_gold_specifics.py`).

Titles are Lean `String`s; they are ordered by their underlying character
list (`String.data`), which is the lexicographic order the engine's
`ORDER BY title` uses (and is provably the same order as `String.le`).
SQL result multisets are modelled as Lean lists; where the engine's
presentation order of rows is unspecified, definitions take that order as
an explicit list argument so that order-(in)dependence can be stated.
-/

namespace Gold

/-- Lexicographic order on titles, via the character list.  This is the
`ORDER BY title` collation (binary codepoint comparison). -/
def strLe (a b : String) : Prop := a.data ≤ b.data

/-- Strict lexicographic order on titles. -/
def strLt (a b : String) : Prop := a.data < b.data

instance : DecidableRel strLe := fun a b => inferInstanceAs (Decidable (a.data ≤ b.data))

instance : DecidableRel strLt := fun a b => inferInstanceAs (Decidable (a.data < b.data))

instance : IsTotal String strLe := ⟨fun a b => le_total a.data b.data⟩

instance : IsTrans String strLe := ⟨fun _ _ _ h1 h2 => le_trans h1 h2⟩

instance : IsAntisymm String strLe :=
  ⟨fun a b h1 h2 => by
    cases a; cases b
    simp only [strLe] at h1 h2
    simp [le_antisymm h1 h2]⟩

theorem strLe_of_lt {a b : String} (h : strLt a b) : strLe a b := le_of_lt h

theorem strLt_of_le_of_ne {a b : String} (h : strLe a b) (hne : a ≠ b) : strLt a b := by
  rcases lt_or_eq_of_le h with h' | h'
  · exact h'
  · exfalso
    apply hne
    cases a
    cases b
    simp only at h'
    simp [h']

/-- One row of a language's article dimension (`dict.parquet`):
`(id BIGINT, title VARCHAR)`. -/
structure DimEntry where
  id : Int
  title : String
deriving DecidableEq

/-- The per-language dictionary, as the list of rows of the `dim` table. -/
abbrev Dim := List DimEntry

/-- The titles present in a dictionary. -/
def dimTitles (d : Dim) : List String := d.map (·.title)

/-- `SELECT COALESCE(MAX(id), 0) FROM dim` (line 128 of `aggregate_gold.py`). -/
def dimMaxId (d : Dim) : Int :=
  match d.map (·.id) with
  | [] => 0
  | x :: xs => xs.foldl max x

/-- One transition record of the partition input (`s` table columns
`prev_title`, `curr_title`, `n`); the constant `lang/year/month` columns
are left implicit since a single partition is modelled. -/
structure TransRec where
  prev_title : Option String
  curr_title : Option String
  n : Int
deriving DecidableEq

/-- `CREATE TEMP TABLE s AS SELECT ... WHERE n > 0` (line 228). -/
def sTable (recs : List TransRec) : List TransRec := recs.filter (fun r => 0 < r.n)

/-- `part_titles_all`: curr titles then prev titles, nulls excluded
(`UNION ALL`, lines 107-112). -/
def partTitlesAll (s : List TransRec) : List String :=
  (s.filterMap (·.curr_title)) ++ (s.filterMap (·.prev_title))

/-- `part_titles`: `SELECT DISTINCT title FROM part_titles_all` (lines 113-116). -/
def partTitles (s : List TransRec) : List String := (partTitlesAll s).dedup

/-- `new_titles`: anti-join of the month's titles against `dim_idx` by title
(lines 119-125). -/
def newTitles (d : Dim) (p : List String) : List String :=
  p.filter (fun t => ¬ d.any (fun e => e.title = t))

/-- `dim_new`: `ROW_NUMBER() OVER (ORDER BY title) + base` over the distinct
new titles (lines 129-135). -/
def dimNew (base : Int) (nt : List String) : Dim :=
  (List.insertionSort strLe nt.dedup).enum.map (fun p => ⟨base + (p.1 + 1), p.2⟩)

/-- `dim_merged = dim UNION ALL dim_new` with the freshly assigned ids
(lines 137-142); this is the merge step of `update_dim_with_partition`. -/
def updateDim (d : Dim) (p : List String) : Dim :=
  d ++ dimNew (dimMaxId d) (newTitles d p)

/-- The whole dictionary update of `update_dim_with_partition` for one
partition table `s`. -/
def update_dim_with_partition (d : Dim) (s : List TransRec) : Dim :=
  updateDim d (partTitles s)

/-- Dictionary invariant: titles and ids are each pairwise distinct, so the
dictionary is a bijection between its titles and its ids. -/
def DimWF (d : Dim) : Prop := (d.map (·.title)).Nodup ∧ (d.map (·.id)).Nodup

instance : DecidablePred DimWF := fun d =>
  decidable_of_iff ((d.map (fun e => e.title)).Nodup ∧ (d.map (fun e => e.id)).Nodup)
    (by unfold DimWF; exact Iff.rfl)

-- ------------------------------------------------------------------
-- Helper lemmas about the merge step
-- ------------------------------------------------------------------

theorem le_foldl_max (l : List Int) (a : Int) : a ≤ l.foldl max a := by
  induction l generalizing a with
  | nil => exact le_refl a
  | cons y ys ih => exact le_trans (le_max_left a y) (ih (max a y))

theorem mem_le_foldl_max {l : List Int} {x : Int} (h : x ∈ l) (a : Int) :
    x ≤ l.foldl max a := by
  induction l generalizing a with
  | nil => cases h
  | cons y ys ih =>
    rcases List.mem_cons.mp h with rfl | h'
    · exact le_trans (le_max_right a x) (le_foldl_max ys (max a x))
    · exact ih h' (max a y)

theorem mem_le_dimMaxId {d : Dim} {e : DimEntry} (h : e ∈ d) : e.id ≤ dimMaxId d := by
  have hmem : e.id ∈ d.map (·.id) := List.mem_map.mpr ⟨e, h, rfl⟩
  unfold dimMaxId
  rcases hmap : d.map (·.id) with _ | ⟨x, xs⟩
  · rw [hmap] at hmem; cases hmem
  · rw [hmap] at hmem
    rw [hmap]
    rcases List.mem_cons.mp hmem with h1 | h1
    · rw [h1]; exact le_foldl_max xs x
    · exact mem_le_foldl_max h1 x

/-- Every entry produced by `dimNew` carries an id strictly above `base`. -/
theorem dimNew_id_gt {base : Int} {nt : List String} {e : DimEntry}
    (h : e ∈ dimNew base nt) : base < e.id := by
  rcases List.mem_map.mp h with ⟨p, _, rfl⟩
  have : (0 : Int) < (p.1 : Int) + 1 := by positivity
  simp only
  omega

/-- The title column of `dimNew base nt` is the sorted deduplication of `nt`. -/
theorem dimNew_map_title (base : Int) (nt : List String) :
    (dimNew base nt).map (·.title) = List.insertionSort strLe nt.dedup := by
  unfold dimNew
  rw [List.map_map]
  have h : ((fun e : DimEntry => e.title) ∘ fun p : Nat × String => DimEntry.mk (base + (p.1 + 1)) p.2)
      = Prod.snd := rfl
  rw [h, List.enum_map_snd]

/-- Membership in the titles of `dimNew`. -/
theorem mem_dimNew_titles {base : Int} {nt : List String} {t : String} :
    t ∈ (dimNew base nt).map (·.title) ↔ t ∈ nt := by
  rw [dimNew_map_title]
  rw [(List.perm_insertionSort strLe nt.dedup).mem_iff]
  exact List.mem_dedup

theorem mem_newTitles {d : Dim} {p : List String} {t : String} :
    t ∈ newTitles d p ↔ t ∈ p ∧ t ∉ dimTitles d := by
  unfold newTitles dimTitles
  rw [List.mem_filter]
  simp [List.any_eq_true, List.mem_map]

/-- The id column of `dimNew base nt`, as a function of the sorted titles. -/
theorem dimNew_map_id (base : Int) (nt : List String) :
    (dimNew base nt).map (·.id)
      = (List.range (List.insertionSort strLe nt.dedup).length).map
          (fun i : Nat => base + ((i : Int) + 1)) := by
  unfold dimNew
  rw [List.map_map]
  have h : ((fun e : DimEntry => e.id) ∘ fun p : Nat × String => DimEntry.mk (base + (p.1 + 1)) p.2)
      = (fun i : Nat => base + ((i : Int) + 1)) ∘ Prod.fst := rfl
  rw [h, ← List.map_map, List.enum_map_fst]

theorem dimNew_ids_nodup (base : Int) (nt : List String) :
    ((dimNew base nt).map (·.id)).Nodup := by
  rw [dimNew_map_id]
  refine (List.nodup_range _).map ?_
  intro i j hij
  simp only at hij
  omega

theorem dimNew_titles_nodup (base : Int) (nt : List String) :
    ((dimNew base nt).map (·.title)).Nodup := by
  rw [dimNew_map_title]
  exact (List.perm_insertionSort strLe nt.dedup).nodup_iff.mpr (List.nodup_dedup nt)

theorem dimNew_titles_sorted (base : Int) (nt : List String) :
    List.Sorted strLt ((dimNew base nt).map (·.title)) := by
  rw [dimNew_map_title]
  have hs : List.Sorted strLe (List.insertionSort strLe nt.dedup) :=
    List.sorted_insertionSort strLe nt.dedup
  have hn : (List.insertionSort strLe nt.dedup).Nodup :=
    (List.perm_insertionSort strLe nt.dedup).nodup_iff.mpr (List.nodup_dedup nt)
  exact (hs.and hn).imp (fun h => strLt_of_le_of_ne h.1 h.2)

/-- Old entries survive the merge verbatim. -/
theorem mem_updateDim_of_mem {d : Dim} {p : List String} {e : DimEntry} (h : e ∈ d) :
    e ∈ updateDim d p := List.mem_append_left _ h

/-- Entries added by the merge have ids strictly above the pre-merge maximum. -/
theorem updateDim_new_id_gt {d : Dim} {p : List String} {e : DimEntry}
    (h : e ∈ updateDim d p) (hnot : e ∉ d) : dimMaxId d < e.id := by
  rcases List.mem_append.mp h with h' | h'
  · exact absurd h' hnot
  · exact dimNew_id_gt h'

/-- The merge preserves the dictionary's bijectivity invariant. -/
theorem dimWF_updateDim {d : Dim} (hWF : DimWF d) (p : List String) :
    DimWF (updateDim d p) := by
  obtain ⟨hT, hI⟩ := hWF
  constructor
  · rw [updateDim, List.map_append, List.nodup_append]
    refine ⟨hT, dimNew_titles_nodup _ _, ?_⟩
    intro t ht ht'
    have := (mem_dimNew_titles.mp ht')
    exact (mem_newTitles.mp this).2 ht
  · rw [updateDim, List.map_append, List.nodup_append]
    refine ⟨hI, dimNew_ids_nodup _ _, ?_⟩
    intro i hi hi'
    rcases List.mem_map.mp hi with ⟨e, he, rfl⟩
    rcases List.mem_map.mp hi' with ⟨e', he', heq⟩
    have h1 : e.id ≤ dimMaxId d := mem_le_dimMaxId he
    have h2 : dimMaxId d < e'.id := dimNew_id_gt he'
    omega

/-- The dictionary obtained by any sequence of merges from the empty
dictionary satisfies the bijectivity invariant. -/
theorem dimWF_foldl (ps : List (List String)) (d : Dim) (h : DimWF d) :
    DimWF (ps.foldl updateDim d) := by
  induction ps generalizing d with
  | nil => exact h
  | cons q qs ih => exact ih _ (dimWF_updateDim h q)

/-- The merge is determined by the set (not the order) of observed titles. -/
theorem updateDim_perm_invariant {d : Dim} {p q : List String}
    (h : List.Perm p q) : updateDim d p = updateDim d q := by
  unfold updateDim
  congr 1
  unfold dimNew
  have hperm : List.Perm (newTitles d p).dedup (newTitles d q).dedup :=
    (h.filter _).dedup
  have hsorted : List.insertionSort strLe (newTitles d p).dedup
      = List.insertionSort strLe (newTitles d q).dedup := by
    refine List.eq_of_perm_of_sorted ?_ (List.sorted_insertionSort _ _)
      (List.sorted_insertionSort _ _)
    exact ((List.perm_insertionSort strLe _).trans hperm).trans
      (List.perm_insertionSort strLe _).symm
  rw [hsorted]

/-- C1: `Merge` (the dictionary update of `update_dim_with_partition`)
assigns ids exactly to the observed titles not already in the dictionary,
starting at `max(existing ids, default 0) + 1` and increasing by 1 in
ascending lexicographic title order, returns the union of old and new
entries, and — for a fixed title set and existing maximum — assigns the
same ids regardless of the order the titles were encountered. -/
theorem C1_merge_assignment (d : Dim) (obs : List String) :
    (∃ ns : List String,
        List.Sorted strLt ns ∧
        (∀ t, t ∈ ns ↔ t ∈ obs ∧ t ∉ dimTitles d) ∧
        updateDim d obs = d ++ ns.enum.map (fun p => DimEntry.mk (dimMaxId d + (p.1 + 1)) p.2))
    ∧ ∀ obs2, List.Perm obs obs2 → updateDim d obs = updateDim d obs2 := by
  constructor
  · refine ⟨List.insertionSort strLe (newTitles d obs).dedup, ?_, ?_, ?_⟩
    · have := dimNew_titles_sorted (dimMaxId d) (newTitles d obs)
      rwa [dimNew_map_title] at this
    · intro t
      rw [(List.perm_insertionSort strLe _).mem_iff, List.mem_dedup]
      exact mem_newTitles
    · rfl
  · intro obs2 h
    exact updateDim_perm_invariant h

/-- Witness for C1 at a concrete dictionary and title lists. -/
theorem C1_merge_assignment_witness :
    updateDim [] ["b", "a"] = updateDim [] ["a", "b"] :=
  (C1_merge_assignment [] ["b", "a"]).2 ["a", "b"] (by decide)

/-- C2: every merge preserves the per-language dictionary invariants:
starting from the empty dictionary any sequence of merges yields a
dictionary whose titles and ids are in bijection; every (id, title) pair
present before a merge is present unchanged after it; and every id
assigned by a merge is strictly greater than the maximum id present
before that merge. -/
theorem C2_dict_invariants :
    (∀ ps : List (List String), DimWF (ps.foldl updateDim ([] : Dim)))
    ∧ ∀ (d : Dim) (obs : List String),
        (∀ e, e ∈ d → e ∈ updateDim d obs)
        ∧ (∀ e, e ∈ updateDim d obs → e ∉ d → dimMaxId d < e.id)
        ∧ (DimWF d → DimWF (updateDim d obs)) := by
  constructor
  · intro ps
    exact dimWF_foldl ps [] (by simp [DimWF])
  · intro d obs
    exact ⟨fun _ he => mem_updateDim_of_mem he,
           fun _ he hnot => updateDim_new_id_gt he hnot,
           fun h => dimWF_updateDim h obs⟩

/-- Witness for C2 at a concrete dictionary, observation list and entry. -/
theorem C2_dict_invariants_witness :
    DimEntry.mk 1 "a" ∈ updateDim [DimEntry.mk 1 "a"] ["b"]
    ∧ DimWF (updateDim [DimEntry.mk 1 "a"] ["b"]) :=
  ⟨(C2_dict_invariants.2 [DimEntry.mk 1 "a"] ["b"]).1 _ (by decide),
   (C2_dict_invariants.2 [DimEntry.mk 1 "a"] ["b"]).2.2 (by decide)⟩

-- ------------------------------------------------------------------
-- The id-resolution join (`s_ids`) and the popularity aggregate (`q_pop`)
-- ------------------------------------------------------------------

/-- One row of `s_ids` (lines 155-167 of `aggregate_gold.py`): ids after
the inner join on `curr_title` and the left join on `prev_title`. -/
structure SRow where
  prev_id : Option Int
  curr_id : Int
  n : Int
deriving DecidableEq

/-- The `prev_id` values the `LEFT JOIN dim_idx dp ON dp.title = s.prev_title`
emits for one record: matching ids, or a single null row when the title is
null or unmatched. -/
def prevLookup (d : Dim) (pt : Option String) : List (Option Int) :=
  let ms := match pt with
    | none => []
    | some t => (d.filter (fun e => e.title = t)).map (fun e => some e.id)
  if ms.isEmpty then [none] else ms

/-- `s_ids`: `FROM s JOIN dim_idx dc ON dc.title = s.curr_title
LEFT JOIN dim_idx dp ON dp.title = s.prev_title` (lines 155-167).
A null `curr_title` matches nothing, so the record is dropped. -/
def sIds (d : Dim) (s : List TransRec) : List SRow :=
  s.flatMap (fun r =>
    match r.curr_title with
    | none => []
    | some t => (d.filter (fun e => e.title = t)).flatMap (fun dc =>
        (prevLookup d r.prev_title).map (fun p => ⟨p, dc.id, r.n⟩)))

/-- `q_pop`: `SELECT curr_id, SUM(n) AS total_clicks FROM s_ids GROUP BY curr_id`
(lines 170-174); the engine's group presentation order is unspecified, the
model uses one concrete order. -/
def qPop (rows : List SRow) : List (Int × Int) :=
  ((rows.map (·.curr_id)).dedup).map
    (fun k => (k, ((rows.filter (fun r => r.curr_id = k)).map (·.n)).sum))

-- ------------------------------------------------------------------
-- Uniqueness of title matches under the dictionary invariant
-- ------------------------------------------------------------------

theorem filter_title_length_le_one {d : Dim} (hWF : DimWF d) (t : String) :
    (d.filter (fun e => e.title = t)).length ≤ 1 := by
  have hcount : (d.map (·.title)).count t ≤ 1 :=
    List.nodup_iff_count_le_one.mp hWF.1 t
  rw [List.count_eq_countP, List.countP_map] at hcount
  rw [← List.countP_eq_length_filter]
  refine le_trans (le_of_eq ?_) hcount
  apply List.countP_congr
  intro e _
  simp [Function.comp, beq_iff_eq]

theorem filter_title_singleton {d : Dim} (hWF : DimWF d) {t : String}
    (hmem : t ∈ dimTitles d) :
    ∃ e : DimEntry, d.filter (fun e => e.title = t) = [e] ∧ e ∈ d ∧ e.title = t := by
  rcases List.mem_map.mp hmem with ⟨e, he, rfl⟩
  have hpos : 0 < (d.filter (fun x => x.title = e.title)).length := by
    rw [List.length_pos]
    intro hnil
    have : e ∈ d.filter (fun x => x.title = e.title) := by
      rw [List.mem_filter]
      exact ⟨he, by simp⟩
    rw [hnil] at this
    cases this
  have hlen : (d.filter (fun x => x.title = e.title)).length = 1 :=
    le_antisymm (filter_title_length_le_one hWF e.title) hpos
  rcases List.length_eq_one.mp hlen with ⟨a, ha⟩
  refine ⟨a, ha, ?_, ?_⟩
  · have : a ∈ d.filter (fun x => x.title = e.title) := by rw [ha]; simp
    exact (List.mem_filter.mp this).1
  · have : a ∈ d.filter (fun x => x.title = e.title) := by rw [ha]; simp
    have := (List.mem_filter.mp this).2
    simpa using this

theorem prevLookup_singleton {d : Dim} (hWF : DimWF d) (pt : Option String) :
    ∃ p, prevLookup d pt = [p] := by
  unfold prevLookup
  rcases pt with _ | t
  · exact ⟨none, rfl⟩
  · simp only
    by_cases hmem : t ∈ dimTitles d
    · rcases filter_title_singleton hWF hmem with ⟨e, he, _, _⟩
      rw [he]
      exact ⟨some e.id, rfl⟩
    · have : d.filter (fun e => e.title = t) = [] := by
        rw [List.filter_eq_nil_iff]
        intro e hed het
        exact hmem (List.mem_map.mpr ⟨e, hed, by simpa using het⟩)
      rw [this]
      exact ⟨none, rfl⟩

/-- Entries of a well-formed dictionary sharing an id are equal. -/
theorem dimWF_id_inj {d : Dim} (hWF : DimWF d) {e1 e2 : DimEntry}
    (h1 : e1 ∈ d) (h2 : e2 ∈ d) (h : e1.id = e2.id) : e1 = e2 := by
  by_contra hne
  exact hne (List.inj_on_of_nodup_map hWF.2 h1 h2 h)

/-- Entries of a well-formed dictionary sharing a title are equal. -/
theorem dimWF_title_inj {d : Dim} (hWF : DimWF d) {e1 e2 : DimEntry}
    (h1 : e1 ∈ d) (h2 : e2 ∈ d) (h : e1.title = e2.title) : e1 = e2 := by
  by_contra hne
  exact hne (List.inj_on_of_nodup_map hWF.1 h1 h2 h)

-- ------------------------------------------------------------------
-- Sum lemmas for conservation (C5)
-- ------------------------------------------------------------------

theorem sum_map_n_split (rows : List SRow) (p : SRow → Bool) :
    ((rows.filter p).map (·.n)).sum + ((rows.filter (fun r => ! p r)).map (·.n)).sum
      = (rows.map (·.n)).sum := by
  induction rows with
  | nil => simp
  | cons r rs ih =>
    by_cases h : p r
    · rw [List.filter_cons, List.filter_cons]
      simp only [h]
      simp only [List.map_cons, List.sum_cons, List.map, ← ih]
      simp
      ring
    · rw [List.filter_cons, List.filter_cons]
      simp only [h]
      simp only [List.map_cons, List.sum_cons, List.map, ← ih]
      simp [h]
      ring

/-- Summing the per-key filtered sums over a duplicate-free covering key
list recovers the total sum (`GROUP BY` conserves `SUM`). -/
theorem sum_map_filter_partition (keys : List Int) (rows : List SRow)
    (hnd : keys.Nodup) (hcov : ∀ r ∈ rows, r.curr_id ∈ keys) :
    (keys.map (fun k => ((rows.filter (fun r => r.curr_id = k)).map (·.n)).sum)).sum
      = (rows.map (·.n)).sum := by
  induction keys generalizing rows with
  | nil =>
    cases rows with
    | nil => simp
    | cons r rs => exact absurd (hcov r (by simp)) (by simp)
  | cons k ks ih =>
    have hknotin : k ∉ ks := (List.nodup_cons.mp hnd).1
    have hndks : ks.Nodup := (List.nodup_cons.mp hnd).2
    set B := rows.filter (fun r => ! (r.curr_id = k : Bool)) with hB
    have hcovB : ∀ r ∈ B, r.curr_id ∈ ks := by
      intro r hr
      have h1 := List.mem_filter.mp hr
      have h2 := hcov r h1.1
      rcases List.mem_cons.mp h2 with h3 | h3
      · exfalso
        have := h1.2
        simp [h3] at this
      · exact h3
    have hfilter_eq : ∀ k' ∈ ks,
        rows.filter (fun r => r.curr_id = k') = B.filter (fun r => r.curr_id = k') := by
      intro k' hk'
      rw [hB, List.filter_filter]
      apply List.filter_congr
      intro r _
      by_cases h : r.curr_id = k'
      · have hne : ¬ k' = k := fun hkk => hknotin (hkk ▸ hk')
        simp [h, hne]
      · simp [h]
    have hks : (ks.map (fun k' => ((rows.filter (fun r => r.curr_id = k')).map (·.n)).sum)).sum
        = (B.map (·.n)).sum := by
      rw [← ih B hndks hcovB]
      congr 1
      apply List.map_congr_left
      intro k' hk'
      rw [hfilter_eq k' hk']
    rw [List.map_cons, List.sum_cons, hks]
    exact sum_map_n_split rows (fun r => r.curr_id = k)

-- ------------------------------------------------------------------
-- Decomposition of the join under the dictionary invariant
-- ------------------------------------------------------------------

/-- Every non-null `curr_title` of the partition resolves in the dictionary. -/
def CurrCovered (d : Dim) (s : List TransRec) : Prop :=
  ∀ r ∈ s, ∀ t, r.curr_title = some t → t ∈ dimTitles d

/-- After `update_dim_with_partition`, every non-null `curr_title` of the
partition's records resolves in the merged dictionary. -/
theorem currCovered_updateDim (d0 : Dim) (s : List TransRec) :
    CurrCovered (update_dim_with_partition d0 s) s := by
  intro r hr t ht
  have h1 : t ∈ partTitlesAll s :=
    List.mem_append_left _ (List.mem_filterMap.mpr ⟨r, hr, ht⟩)
  have h2 : t ∈ partTitles s := List.mem_dedup.mpr h1
  unfold update_dim_with_partition updateDim dimTitles
  rw [List.map_append]
  by_cases hmem : t ∈ dimTitles d0
  · exact List.mem_append_left _ hmem
  · refine List.mem_append_right _ (mem_dimNew_titles.mpr ?_)
    exact mem_newTitles.mpr ⟨h2, hmem⟩

theorem sIds_nil (d : Dim) : sIds d [] = [] := rfl

theorem sIds_cons_none {d : Dim} {r : TransRec} (s : List TransRec)
    (h : r.curr_title = none) : sIds d (r :: s) = sIds d s := by
  unfold sIds
  rw [List.flatMap_cons, h]
  rfl

theorem sIds_cons_some {d : Dim} {r : TransRec} {t : String} (s : List TransRec)
    (h : r.curr_title = some t) :
    sIds d (r :: s)
      = ((d.filter (fun e => e.title = t)).flatMap (fun dc =>
          (prevLookup d r.prev_title).map (fun p => ⟨p, dc.id, r.n⟩))) ++ sIds d s := by
  unfold sIds
  rw [List.flatMap_cons, h]

/-- Under the dictionary invariant and coverage, the join contributes one
row, carrying the record's count, per record with a non-null `curr_title`. -/
theorem sIds_total_sum {d : Dim} (hWF : DimWF d) :
    ∀ s : List TransRec, CurrCovered d s →
    ((sIds d s).map (·.n)).sum = ((s.filter (fun r => r.curr_title ≠ none)).map (·.n)).sum := by
  intro s
  induction s with
  | nil => intro _; simp [sIds_nil]
  | cons r rs ih =>
    intro hcov
    have hcovrs : CurrCovered d rs := fun x hx => hcov x (List.mem_cons_of_mem _ hx)
    rcases hc : r.curr_title with _ | t
    · rw [sIds_cons_none rs hc, ih hcovrs, List.filter_cons]
      simp [hc]
    · have hmem : t ∈ dimTitles d := hcov r (by simp) t hc
      rcases filter_title_singleton hWF hmem with ⟨e, he, _, _⟩
      rcases prevLookup_singleton hWF r.prev_title with ⟨p, hp⟩
      rw [sIds_cons_some rs hc, List.map_append, List.sum_append, ih hcovrs,
          List.filter_cons, he, hp]
      simp [hc]

/-- Under the dictionary invariant and coverage, the rows joined to the id
of entry `(id, t)` are exactly those of the records with `curr_title = t`. -/
theorem sIds_filter_id_sum {d : Dim} (hWF : DimWF d) {i : Int} {t : String}
    (he : DimEntry.mk i t ∈ d) :
    ∀ s : List TransRec, CurrCovered d s →
    (((sIds d s).filter (fun r => r.curr_id = i)).map (·.n)).sum
      = ((s.filter (fun r => r.curr_title = some t)).map (·.n)).sum := by
  intro s
  induction s with
  | nil => intro _; simp [sIds_nil]
  | cons r rs ih =>
    intro hcov
    have hcovrs : CurrCovered d rs := fun x hx => hcov x (List.mem_cons_of_mem _ hx)
    rcases hc : r.curr_title with _ | t'
    · rw [sIds_cons_none rs hc, ih hcovrs, List.filter_cons]
      simp [hc]
    · have hmem : t' ∈ dimTitles d := hcov r (by simp) t' hc
      rcases filter_title_singleton hWF hmem with ⟨e, hfe, hed, het⟩
      rcases prevLookup_singleton hWF r.prev_title with ⟨p, hp⟩
      rw [sIds_cons_some rs hc, List.filter_append, List.map_append, List.sum_append,
          ih hcovrs, List.filter_cons, hfe, hp]
      by_cases hid : e.id = i
      · have heq : e = DimEntry.mk i t := dimWF_id_inj hWF hed he hid
        have htt : t' = t := by rw [← het, heq]
        simp [hc, htt, hid]
      · have htt : t' ≠ t := by
          intro h
          apply hid
          have heq : e = DimEntry.mk i t :=
            dimWF_title_inj hWF hed he (by rw [het, h])
          rw [heq]
        simp [hc, htt, hid]

/-- Every `curr_id` of a joined row is the id of some dictionary entry. -/
theorem sIds_curr_mem {d : Dim} {s : List TransRec} {row : SRow}
    (hrow : row ∈ sIds d s) : ∃ t, DimEntry.mk row.curr_id t ∈ d := by
  rcases List.mem_flatMap.mp hrow with ⟨r, _, hin⟩
  rcases hc : r.curr_title with _ | t
  · rw [hc] at hin; cases hin
  · rw [hc] at hin
    rcases List.mem_flatMap.mp hin with ⟨dc, hdc, hmap⟩
    rcases List.mem_map.mp hmap with ⟨p, _, rfl⟩
    exact ⟨dc.title, (List.mem_filter.mp hdc).1⟩

/-- C5: for every partition whose records all have a positive count, the
sum of `total_clicks` over the Popularity Fact rows equals the sum of
`count` over the input records with a non-null `curr_title`, and each
Popularity row's `total_clicks` is the sum of the counts of the records
whose `curr_title` is the title its `curr_id` denotes. -/
theorem C5_conservation (d0 : Dim) (recs : List TransRec)
    (hWF : DimWF d0) (hpos : ∀ r ∈ recs, 0 < r.n) :
    ((qPop (sIds (update_dim_with_partition d0 (sTable recs)) (sTable recs))).map Prod.snd).sum
      = ((recs.filter (fun r => r.curr_title ≠ none)).map (·.n)).sum
    ∧ ∀ kc ∈ qPop (sIds (update_dim_with_partition d0 (sTable recs)) (sTable recs)),
        ∃ t, DimEntry.mk kc.1 t ∈ update_dim_with_partition d0 (sTable recs)
          ∧ kc.2 = ((recs.filter (fun r => r.curr_title = some t)).map (·.n)).sum := by
  have hs : sTable recs = recs :=
    List.filter_eq_self.mpr (fun r hr => by simpa using hpos r hr)
  rw [hs]
  set d1 := update_dim_with_partition d0 recs with hd1
  have hWF1 : DimWF d1 := dimWF_updateDim hWF _
  have hcov : CurrCovered d1 recs := currCovered_updateDim d0 recs
  set rows := sIds d1 recs with hrows
  constructor
  · unfold qPop
    rw [List.map_map]
    have hmm : ((fun kc : Int × Int => kc.2) ∘ fun k =>
        (k, ((rows.filter (fun r => r.curr_id = k)).map (·.n)).sum))
        = fun k => ((rows.filter (fun r => r.curr_id = k)).map (·.n)).sum := rfl
    rw [hmm]
    rw [sum_map_filter_partition _ rows (List.nodup_dedup _) ?_]
    · exact sIds_total_sum hWF1 recs hcov
    · intro r hr
      exact List.mem_dedup.mpr (List.mem_map.mpr ⟨r, hr, rfl⟩)
  · intro kc hkc
    rcases List.mem_map.mp hkc with ⟨k, hk, rfl⟩
    have hk' : k ∈ rows.map (·.curr_id) := List.mem_dedup.mp hk
    rcases List.mem_map.mp hk' with ⟨row, hrow, rfl⟩
    rcases sIds_curr_mem hrow with ⟨t, ht⟩
    exact ⟨t, ht, sIds_filter_id_sum hWF1 ht recs hcov⟩

/-- Witness for C5 on a small concrete partition. -/
theorem C5_conservation_witness :
    ((qPop (sIds (update_dim_with_partition []
          (sTable [TransRec.mk none (some "Paris") 100,
                   TransRec.mk (some "Paris") (some "London") 50,
                   TransRec.mk none (some "London") 30]))
        (sTable [TransRec.mk none (some "Paris") 100,
                 TransRec.mk (some "Paris") (some "London") 50,
                 TransRec.mk none (some "London") 30]))).map Prod.snd).sum
      = (([TransRec.mk none (some "Paris") 100,
           TransRec.mk (some "Paris") (some "London") 50,
           TransRec.mk none (some "London") 30].filter
            (fun r => r.curr_title ≠ none)).map (·.n)).sum
    ∧ ∀ kc ∈ qPop (sIds (update_dim_with_partition []
          (sTable [TransRec.mk none (some "Paris") 100,
                   TransRec.mk (some "Paris") (some "London") 50,
                   TransRec.mk none (some "London") 30]))
        (sTable [TransRec.mk none (some "Paris") 100,
                 TransRec.mk (some "Paris") (some "London") 50,
                 TransRec.mk none (some "London") 30])),
        ∃ t, DimEntry.mk kc.1 t ∈ update_dim_with_partition []
            (sTable [TransRec.mk none (some "Paris") 100,
                     TransRec.mk (some "Paris") (some "London") 50,
                     TransRec.mk none (some "London") 30])
          ∧ kc.2 = (([TransRec.mk none (some "Paris") 100,
                      TransRec.mk (some "Paris") (some "London") 50,
                      TransRec.mk none (some "London") 30].filter
                       (fun r => r.curr_title = some t)).map (·.n)).sum :=
  C5_conservation []
    [TransRec.mk none (some "Paris") 100,
     TransRec.mk (some "Paris") (some "London") 50,
     TransRec.mk none (some "London") 30]
    (by decide) (by decide)

-- ------------------------------------------------------------------
-- The Top-N ranking (`q_top`, lines 175-181)
-- ------------------------------------------------------------------

/-- One Popularity Fact row (the constant `lang/year/month` columns are
implicit: a single partition is modelled). -/
structure PopRow where
  curr_id : Int
  total_clicks : Int
deriving DecidableEq

/-- The ranking order `q_top` actually uses: `ORDER BY total_clicks DESC`
and nothing else. -/
def clicksGe (a b : PopRow) : Prop := b.total_clicks ≤ a.total_clicks

instance : DecidableRel clicksGe := fun a b =>
  inferInstanceAs (Decidable (b.total_clicks ≤ a.total_clicks))

instance : IsTotal PopRow clicksGe := ⟨fun a b => le_total b.total_clicks a.total_clicks⟩

instance : IsTrans PopRow clicksGe := ⟨fun _ _ _ h1 h2 => le_trans h2 h1⟩

/-- `q_top`: `ROW_NUMBER() OVER (ORDER BY total_clicks DESC) AS rn ...
QUALIFY rn <= topn`.  The `ORDER BY` is not total on ties, so the rank of
equal-click rows depends on the engine's presentation order of the
popularity rows; the model takes that presentation order as the input
list order (a stable sort keeps ties in list order). -/
def qTop (pop : List PopRow) (topn : Nat) : List (PopRow × Nat) :=
  ((List.insertionSort clicksGe pop).enum.map (fun p => (p.2, p.1 + 1))).filter
    (fun p => p.2 ≤ topn)

/-- Modelled from the spec: the ranking §3 prescribes for the Top-N fact,
`total_clicks` descending with ties broken by ascending id. -/
def specTopOrder (a b : PopRow) : Prop :=
  b.total_clicks < a.total_clicks
  ∨ (a.total_clicks = b.total_clicks ∧ a.curr_id ≤ b.curr_id)

instance : DecidableRel specTopOrder := fun x y =>
  inferInstanceAs (Decidable (y.total_clicks < x.total_clicks
    ∨ (x.total_clicks = y.total_clicks ∧ x.curr_id ≤ y.curr_id)))

/-- Modelled from the spec: Top-N with the id tie-break of §3. -/
def specTop (pop : List PopRow) (topn : Nat) : List (PopRow × Nat) :=
  ((List.insertionSort specTopOrder pop).enum.map (fun p => (p.2, p.1 + 1))).filter
    (fun p => p.2 ≤ topn)

/-- Filtering `rn ≤ n` after numbering from `k+1` is taking a prefix. -/
theorem filter_rn_le_enumFrom (xs : List PopRow) :
    ∀ (k n : Nat),
    ((List.enumFrom k xs).map (fun p => (p.2, p.1 + 1))).filter (fun p => p.2 ≤ n)
      = (List.enumFrom k (xs.take (n - k))).map (fun p => (p.2, p.1 + 1)) := by
  induction xs with
  | nil => intro k n; simp
  | cons x xs ih =>
    intro k n
    rw [List.enumFrom_cons, List.map_cons, List.filter_cons]
    by_cases hk : k + 1 ≤ n
    · have htake : (x :: xs).take (n - k) = x :: xs.take (n - (k + 1)) := by
        have : n - k = (n - (k + 1)) + 1 := by omega
        rw [this, List.take_succ_cons]
      rw [htake, List.enumFrom_cons, List.map_cons]
      simp only [hk]
      rw [ih (k + 1) n]
      simp
    · have htake : (x :: xs).take (n - k) = [] := by
        have : n - k = 0 := by omega
        rw [this, List.take_zero]
      rw [htake]
      have hnil : ((List.enumFrom (k + 1) xs).map (fun p => (p.2, p.1 + 1))).filter
          (fun p => p.2 ≤ n) = [] := by
        rw [ih (k + 1) n]
        have : n - (k + 1) = 0 := by omega
        rw [this, List.take_zero]
        simp
      rw [if_neg (by simpa using hk), hnil]
      simp

/-- C4 counterexample: two presentation orders of the same popularity rows
(two rows with equal `total_clicks`, ids 1 and 2) yield different Top-1
results, and neither matches the id tie-break the claim states. -/
theorem C4_top_counterexample :
    List.Perm [PopRow.mk 2 5, PopRow.mk 1 5] [PopRow.mk 1 5, PopRow.mk 2 5]
    ∧ qTop [PopRow.mk 2 5, PopRow.mk 1 5] 1 ≠ qTop [PopRow.mk 1 5, PopRow.mk 2 5] 1
    ∧ qTop [PopRow.mk 2 5, PopRow.mk 1 5] 1 ≠ specTop [PopRow.mk 2 5, PopRow.mk 1 5] 1 := by
  decide

/-- C4 (amended): the Top-N fact keeps the first N rows of the popularity
rows sorted by `total_clicks` descending — every kept row outranks every
dropped row and ranks are positions — but ties are kept in the engine's
presentation order, not broken by ascending id. -/
theorem C4_top_ranking (pop : List PopRow) (topn : Nat) :
    ∃ l : List PopRow,
      List.Perm l pop
      ∧ List.Sorted clicksGe l
      ∧ qTop pop topn = (List.enumFrom 0 (l.take topn)).map (fun p => (p.2, p.1 + 1))
      ∧ ∀ a ∈ l.take topn, ∀ b ∈ l.drop topn, clicksGe a b := by
  refine ⟨List.insertionSort clicksGe pop, List.perm_insertionSort _ _,
    List.sorted_insertionSort _ _, ?_, ?_⟩
  · unfold qTop
    rw [List.enum]
    rw [filter_rn_le_enumFrom _ 0 topn]
    simp
  · have hs : List.Sorted clicksGe (List.insertionSort clicksGe pop) :=
      List.sorted_insertionSort _ _
    have hsplit := List.take_append_drop topn (List.insertionSort clicksGe pop)
    rw [← hsplit] at hs
    intro a ha b hb
    exact (List.pairwise_append.mp hs).2.2 a ha b hb

-- ------------------------------------------------------------------
-- Referrer and edge aggregates (`q_ref`, `q_edges`)
-- ------------------------------------------------------------------

/-- One aggregated referrer row of `q_ref`'s `agg` CTE (lines 188-193). -/
structure RefRow where
  curr_id : Int
  prev_id : Option Int
  clicks_from_prev : Int
deriving DecidableEq

/-- `ORDER BY clicks_from_prev DESC` of the referrer ranking (line 195). -/
def refClicksGe (a b : RefRow) : Prop := b.clicks_from_prev ≤ a.clicks_from_prev

instance : DecidableRel refClicksGe := fun x y =>
  inferInstanceAs (Decidable (y.clicks_from_prev ≤ x.clicks_from_prev))

/-- The `agg` CTE of `q_ref`: non-null `prev_id` rows grouped by
(curr_id, prev_id) with summed clicks. -/
def refAgg (rows : List SRow) : List RefRow :=
  let er := rows.filter (fun r => r.prev_id ≠ none)
  ((er.map (fun r => (r.curr_id, r.prev_id))).dedup).map
    (fun k => ⟨k.1, k.2,
      ((er.filter (fun r => (r.curr_id, r.prev_id) = k)).map (·.n)).sum⟩)

/-- `q_ref` (lines 187-199): threshold filter, then
`ROW_NUMBER() OVER (PARTITION BY curr_id ORDER BY clicks_from_prev DESC)`,
keeping ranks up to `topm`; ties keep the engine presentation order. -/
def qRef (rows : List SRow) (topm : Nat) (minRef : Int) : List (RefRow × Nat) :=
  let agg := (refAgg rows).filter (fun a => minRef ≤ a.clicks_from_prev)
  ((agg.map (·.curr_id)).dedup).flatMap (fun k =>
    ((List.insertionSort refClicksGe (agg.filter (fun a => a.curr_id = k))).enum.map
        (fun p => (p.2, p.1 + 1))).filter (fun p => p.2 ≤ topm))

/-- `q_edges` (lines 204-211): non-null `prev_id` rows grouped by
(prev_id, curr_id), summed, kept when the sum reaches `min_edges`. -/
def qEdges (rows : List SRow) (minEdges : Int) : List ((Option Int × Int) × Int) :=
  let er := rows.filter (fun r => r.prev_id ≠ none)
  (((er.map (fun r => (r.prev_id, r.curr_id))).dedup).map
    (fun k => (k, ((er.filter (fun r => (r.prev_id, r.curr_id) = k)).map (·.n)).sum))).filter
    (fun kc => minEdges ≤ kc.2)

-- ------------------------------------------------------------------
-- Output artifacts and the per-partition run (`run_one_partition`)
-- ------------------------------------------------------------------

/-- The four outputs of `outputs_for` (lines 47-55), in dict key order. -/
inductive Artifact
  | article_popularity
  | article_top
  | referrers_top
  | edges_monthly
deriving DecidableEq

/-- The key order of the `outputs_for` dict. -/
def artifactKeys : List Artifact :=
  [.article_popularity, .article_top, .referrers_top, .edges_monthly]

/-- Thresholds and switches passed to `run_one_partition`. -/
structure RunCfg where
  topn : Nat
  topm : Nat
  min_edges : Int
  min_ref : Int
  write_edges : Bool
  write_ref : Bool
  skip_existing : Bool

/-- The on-disk state relevant to one partition: the language's dictionary
file and the four fact files; `none` models "missing or zero-size". -/
structure GoldState where
  dimFile : Option Dim
  popFile : Option (List (Int × Int))
  topFile : Option (List (PopRow × Nat))
  refFile : Option (List (RefRow × Nat))
  edgeFile : Option (List ((Option Int × Int) × Int))
deriving DecidableEq

/-- Existence-with-nonzero-size of each artifact of the partition. -/
def presentArtifacts (st : GoldState) : Artifact → Bool
  | .article_popularity => st.popFile.isSome
  | .article_top => st.topFile.isSome
  | .referrers_top => st.refFile.isSome
  | .edges_monthly => st.edgeFile.isSome

/-- `missing_outputs` (lines 60-68): the artifacts not present with
non-zero size, in dict key order. -/
def missing_outputs (pres : Artifact → Bool) : List Artifact :=
  artifactKeys.filter (fun a => ¬ pres a)

/-- The `to_write` list of `run_one_partition` (lines 218-222): the missing
artifacts (all artifacts when skip-mode is off), minus the disabled ones. -/
def toWrite (cfg : RunCfg) (pres : Artifact → Bool) : List Artifact :=
  let tw := if cfg.skip_existing then missing_outputs pres else artifactKeys
  let tw2 := if cfg.write_edges then tw else tw.filter (fun a => a ≠ .edges_monthly)
  if cfg.write_ref then tw2 else tw2.filter (fun a => a ≠ .referrers_top)

inductive RunStatus
  | processed
  | skipped
deriving DecidableEq

/-- A durable write performed by the run, in program order. -/
inductive WEvent
  | dimWrite
  | factWrite (a : Artifact)
deriving DecidableEq

/-- The artifacts `compute_and_write_outputs` writes, in program order
(lines 182-211): popularity and top unconditionally, then referrers and
edges according to their switches — independent of `to_write`. -/
def computeWrites (cfg : RunCfg) : List Artifact :=
  [.article_popularity, .article_top]
    ++ (if cfg.write_ref then [.referrers_top] else [])
    ++ (if cfg.write_edges then [.edges_monthly] else [])

/-- The popularity rows as `q_top`'s input relation. -/
def popRowsOf (rows : List SRow) : List PopRow :=
  (qPop rows).map (fun kc => ⟨kc.1, kc.2⟩)

/-- The state after the non-skipped path of `run_one_partition`
(lines 227-248): the dictionary is merged and persisted, popularity and
top are (re)written unconditionally, referrers and edges when enabled. -/
def stAfter (cfg : RunCfg) (recs : List TransRec) (st : GoldState) : GoldState :=
  let s := sTable recs
  let dim1 := update_dim_with_partition (st.dimFile.getD []) s
  let rows := sIds dim1 s
  { dimFile := some dim1
    popFile := some (qPop rows)
    topFile := some (qTop (popRowsOf rows) cfg.topn)
    refFile := if cfg.write_ref then some (qRef rows cfg.topm cfg.min_ref) else st.refFile
    edgeFile := if cfg.write_edges then some (qEdges rows cfg.min_edges) else st.edgeFile }

/-- `run_one_partition` (lines 213-249) as a state transformer returning
the status, the post-state, and the ordered list of durable writes. -/
def run_one_partition (cfg : RunCfg) (recs : List TransRec) (st : GoldState) :
    RunStatus × GoldState × List WEvent :=
  if cfg.skip_existing = true ∧ toWrite cfg (presentArtifacts st) = []
  then (.skipped, st, [])
  else (.processed, stAfter cfg recs st, .dimWrite :: (computeWrites cfg).map .factWrite)

theorem run_one_partition_skip {cfg : RunCfg} (recs : List TransRec) {st : GoldState}
    (hs : cfg.skip_existing = true) (htw : toWrite cfg (presentArtifacts st) = []) :
    run_one_partition cfg recs st = (.skipped, st, []) := by
  unfold run_one_partition
  rw [if_pos ⟨hs, htw⟩]

theorem run_one_partition_processed {cfg : RunCfg} (recs : List TransRec) {st : GoldState}
    (h : ¬ (cfg.skip_existing = true ∧ toWrite cfg (presentArtifacts st) = [])) :
    run_one_partition cfg recs st
      = (.processed, stAfter cfg recs st, .dimWrite :: (computeWrites cfg).map .factWrite) := by
  unfold run_one_partition
  rw [if_neg h]

/-- Under skip-mode, `to_write` is empty exactly when every enabled
artifact is present with non-zero size. -/
theorem toWrite_nil_iff {cfg : RunCfg} (pres : Artifact → Bool)
    (hskip : cfg.skip_existing = true) :
    toWrite cfg pres = []
      ↔ (pres .article_popularity = true ∧ pres .article_top = true
         ∧ (cfg.write_ref = true → pres .referrers_top = true)
         ∧ (cfg.write_edges = true → pres .edges_monthly = true)) := by
  cases hp : pres .article_popularity <;> cases ht : pres .article_top <;>
    cases hr : pres .referrers_top <;> cases he : pres .edges_monthly <;>
      cases hwr : cfg.write_ref <;> cases hwe : cfg.write_edges <;>
        simp [toWrite, missing_outputs, artifactKeys, hskip, hp, ht, hr, he, hwr, hwe]

/-- C7: in every run of `ProcessPartition`, either nothing is written, or
the first durable write is the persisted merged dictionary and every later
write is a fact artifact — no fact output is produced before the
dictionary merge for the partition has been persisted. -/
theorem C7_dict_persisted_before_facts (cfg : RunCfg) (recs : List TransRec) (st : GoldState) :
    (run_one_partition cfg recs st).2.2 = []
    ∨ ((run_one_partition cfg recs st).2.2.head? = some WEvent.dimWrite
       ∧ ∀ e ∈ (run_one_partition cfg recs st).2.2.tail, ∃ a, e = WEvent.factWrite a) := by
  by_cases h : cfg.skip_existing = true ∧ toWrite cfg (presentArtifacts st) = []
  · left
    rw [run_one_partition_skip recs h.1 h.2]
  · right
    rw [run_one_partition_processed recs h]
    refine ⟨rfl, ?_⟩
    intro e he
    simp only [List.tail_cons] at he
    rcases List.mem_map.mp he with ⟨a, _, rfl⟩
    exact ⟨a, rfl⟩

/-- C6: with skip-mode on, if every enabled artifact of the partition is
present with non-zero size, the run returns `skipped` and leaves the
dictionary and all output files untouched; consequently a second run over
the same input always performs no writes and leaves every file
byte-identical to the first run's outcome. -/
theorem C6_skip_idempotent (cfg : RunCfg) (recs : List TransRec) (st : GoldState)
    (hskip : cfg.skip_existing = true) :
    ((presentArtifacts st .article_popularity = true
      ∧ presentArtifacts st .article_top = true
      ∧ (cfg.write_ref = true → presentArtifacts st .referrers_top = true)
      ∧ (cfg.write_edges = true → presentArtifacts st .edges_monthly = true)) →
        run_one_partition cfg recs st = (.skipped, st, []))
    ∧ run_one_partition cfg recs ((run_one_partition cfg recs st).2.1)
        = (.skipped, (run_one_partition cfg recs st).2.1, []) := by
  constructor
  · intro h
    exact run_one_partition_skip recs hskip ((toWrite_nil_iff _ hskip).mpr h)
  · by_cases h0 : toWrite cfg (presentArtifacts st) = []
    · rw [run_one_partition_skip recs hskip h0]
      exact run_one_partition_skip recs hskip h0
    · rw [run_one_partition_processed recs (fun hc => h0 hc.2)]
      simp only
      apply run_one_partition_skip recs hskip
      apply (toWrite_nil_iff _ hskip).mpr
      refine ⟨rfl, rfl, ?_, ?_⟩
      · intro hwr
        simp [presentArtifacts, stAfter, hwr]
      · intro hwe
        simp [presentArtifacts, stAfter, hwe]

/-- Witness for C6 at a concrete state with every artifact present. -/
theorem C6_skip_idempotent_witness :
    run_one_partition (RunCfg.mk 1000 50 1 1 true true true) []
        (GoldState.mk (some []) (some []) (some []) (some []) (some []))
      = (.skipped, GoldState.mk (some []) (some []) (some []) (some []) (some []), []) :=
  (C6_skip_idempotent (RunCfg.mk 1000 50 1 1 true true true) []
      (GoldState.mk (some []) (some []) (some []) (some []) (some [])) rfl).1
    (by decide)

/-- C3 (code bug): with skip-mode on and exactly `article_top` missing,
`run_one_partition` nevertheless rewrites every enabled artifact —
including `article_popularity`, which existed with non-zero size and is
not in `to_write` — because `compute_and_write_outputs` never consults
`to_write`.  The popularity file's content even changes here. -/
theorem C3_rewrites_existing_artifacts :
    toWrite (RunCfg.mk 1000 50 1 1 true true true)
        (presentArtifacts (GoldState.mk none (some []) none (some []) (some [])))
      = [.article_top]
    ∧ Artifact.article_popularity ∉
        toWrite (RunCfg.mk 1000 50 1 1 true true true)
          (presentArtifacts (GoldState.mk none (some []) none (some []) (some [])))
    ∧ (run_one_partition (RunCfg.mk 1000 50 1 1 true true true)
          [TransRec.mk none (some "X") 7]
          (GoldState.mk none (some []) none (some []) (some []))).2.2
        = [.dimWrite, .factWrite .article_popularity, .factWrite .article_top,
           .factWrite .referrers_top, .factWrite .edges_monthly]
    ∧ (run_one_partition (RunCfg.mk 1000 50 1 1 true true true)
          [TransRec.mk none (some "X") 7]
          (GoldState.mk none (some []) none (some []) (some []))).2.1.popFile
        ≠ (GoldState.mk none (some []) none (some []) (some [])).popFile := by
  decide

-- ------------------------------------------------------------------
-- The per-language loop (`process_lang`, lines 253-275)
-- ------------------------------------------------------------------

/-- One SILVER partition file, identified by its `lang=/year=/month=` path
components. -/
structure PartFile where
  lang : String
  year : Int
  month : Int
deriving DecidableEq

/-- The Python sort key `(year, month)` of line 264, as a tuple order. -/
def ymLe (a b : PartFile) : Prop :=
  a.year < b.year ∨ (a.year = b.year ∧ a.month ≤ b.month)

instance : DecidableRel ymLe := fun a b =>
  inferInstanceAs (Decidable (a.year < b.year ∨ (a.year = b.year ∧ a.month ≤ b.month)))

instance : IsTotal PartFile ymLe := ⟨fun a b => by unfold ymLe; omega⟩

instance : IsTrans PartFile ymLe := ⟨fun a b c h1 h2 => by unfold ymLe at h1 h2 ⊢; omega⟩

instance : DecidableEq (Except String RunStatus) := fun a b =>
  match a, b with
  | .ok x, .ok y => decidable_of_iff (x = y) (by simp)
  | .ok _, .error _ => isFalse (by simp)
  | .error _, .ok _ => isFalse (by simp)
  | .error x, .error y => decidable_of_iff (x = y) (by simp)

/-- The body of `process_lang`'s loop (lines 264-272): a raised error is
caught and counted as skipped, any non-"processed" status counts as
skipped, and the loop always moves on to the next file.  The accumulator
carries ((processed, skipped), attempted order). -/
def processStep (exec : PartFile → Except String RunStatus)
    (acc : (Nat × Nat) × List PartFile) (f : PartFile) : (Nat × Nat) × List PartFile :=
  match exec f with
  | .ok .processed => ((acc.1.1 + 1, acc.1.2), acc.2 ++ [f])
  | .ok .skipped => ((acc.1.1, acc.1.2 + 1), acc.2 ++ [f])
  | .error _ => ((acc.1.1, acc.1.2 + 1), acc.2 ++ [f])

/-- `process_lang` (lines 253-275): the language's files sorted ascending
by (year, month), then the loop. -/
def process_lang (exec : PartFile → Except String RunStatus) (files : List PartFile) :
    (Nat × Nat) × List PartFile :=
  (List.insertionSort ymLe files).foldl (processStep exec) ((0, 0), [])

theorem processStep_foldl (exec : PartFile → Except String RunStatus) :
    ∀ (l : List PartFile) (c : Nat × Nat) (ord : List PartFile),
    (l.foldl (processStep exec) (c, ord)).2 = ord ++ l
    ∧ (l.foldl (processStep exec) (c, ord)).1.1
        = c.1 + (l.filter (fun f => exec f = Except.ok RunStatus.processed)).length
    ∧ (l.foldl (processStep exec) (c, ord)).1.2
        = c.2 + (l.filter (fun f => ¬ exec f = Except.ok RunStatus.processed)).length := by
  intro l
  induction l with
  | nil => intro c ord; simp
  | cons f fs ih =>
    intro c ord
    rw [List.foldl_cons, List.filter_cons, List.filter_cons]
    rcases hx : exec f with e | st
    · have hstep : processStep exec (c, ord) f = ((c.1, c.2 + 1), ord ++ [f]) := by
        unfold processStep
        rw [hx]
      rw [hstep]
      rcases ih (c.1, c.2 + 1) (ord ++ [f]) with ⟨h1, h2, h3⟩
      refine ⟨by rw [h1]; simp, ?_, ?_⟩
      · rw [h2, if_neg (by simp [hx])]
      · rw [h3, if_pos (by simp [hx]), List.length_cons]
        omega
    · cases st with
      | processed =>
        have hstep : processStep exec (c, ord) f = ((c.1 + 1, c.2), ord ++ [f]) := by
          unfold processStep
          rw [hx]
        rw [hstep]
        rcases ih (c.1 + 1, c.2) (ord ++ [f]) with ⟨h1, h2, h3⟩
        refine ⟨by rw [h1]; simp, ?_, ?_⟩
        · rw [h2, if_pos (by simp [hx]), List.length_cons]
          omega
        · rw [h3, if_neg (by simp [hx])]
      | skipped =>
        have hstep : processStep exec (c, ord) f = ((c.1, c.2 + 1), ord ++ [f]) := by
          unfold processStep
          rw [hx]
        rw [hstep]
        rcases ih (c.1, c.2 + 1) (ord ++ [f]) with ⟨h1, h2, h3⟩
        refine ⟨by rw [h1]; simp, ?_, ?_⟩
        · rw [h2, if_neg (by simp [hx])]
        · rw [h3, if_pos (by simp [hx]), List.length_cons]
          omega

theorem filter_not_length (l : List PartFile) (p : PartFile → Prop) [DecidablePred p] :
    (l.filter (fun f => p f)).length + (l.filter (fun f => ¬ p f)).length = l.length := by
  induction l with
  | nil => simp
  | cons f fs ih =>
    rw [List.filter_cons, List.filter_cons]
    by_cases h : p f
    · rw [if_pos (by simpa using h), if_neg (by simpa using h), List.length_cons,
          List.length_cons]
      omega
    · rw [if_neg (by simpa using h), if_pos (by simpa using h), List.length_cons,
          List.length_cons]
      omega

/-- C8: within one language the partitions are attempted one at a time in
ascending (year, month) order; a raised error is caught and counted as
skipped; neither errors nor skips change which later partitions run or
their order, every file is attempted, and processed + skipped equals the
number of files. -/
theorem C8_sequencer (exec : PartFile → Except String RunStatus) (files : List PartFile) :
    (process_lang exec files).2 = List.insertionSort ymLe files
    ∧ List.Sorted ymLe (process_lang exec files).2
    ∧ List.Perm (process_lang exec files).2 files
    ∧ (∀ exec2 : PartFile → Except String RunStatus,
        (process_lang exec2 files).2 = (process_lang exec files).2)
    ∧ (process_lang exec files).1.1
        = ((List.insertionSort ymLe files).filter
            (fun f => exec f = Except.ok RunStatus.processed)).length
    ∧ (process_lang exec files).1.2
        = ((List.insertionSort ymLe files).filter
            (fun f => ¬ exec f = Except.ok RunStatus.processed)).length
    ∧ (process_lang exec files).1.1 + (process_lang exec files).1.2 = files.length := by
  have hmain := processStep_foldl exec (List.insertionSort ymLe files) (0, 0) []
  rcases hmain with ⟨h1, h2, h3⟩
  have horder : (process_lang exec files).2 = List.insertionSort ymLe files := by
    unfold process_lang
    rw [h1]
    simp
  refine ⟨horder, ?_, ?_, ?_, ?_, ?_, ?_⟩
  · rw [horder]
    exact List.sorted_insertionSort ymLe files
  · rw [horder]
    exact List.perm_insertionSort ymLe files
  · intro exec2
    have hm2 := processStep_foldl exec2 (List.insertionSort ymLe files) (0, 0) []
    unfold process_lang
    rw [hm2.1, h1]
  · unfold process_lang
    rw [h2]
    simp
  · unfold process_lang
    rw [h3]
    simp
  · unfold process_lang
    rw [h2, h3]
    simp only [Nat.zero_add]
    exact (filter_not_length (List.insertionSort ymLe files)
        (fun f => exec f = Except.ok RunStatus.processed)).trans
      (List.perm_insertionSort ymLe files).length_eq

-- ------------------------------------------------------------------
-- Insights-builder column resolution (`build_gold_specifics.py`)
-- ------------------------------------------------------------------

/-- `title_expr` (lines 87-101 of `build_gold_specifics.py`): probe
`<pfx>_title`, then `<pfx>_name`, then `CAST(<pfx>_id AS VARCHAR)`,
falling back to the literal `NULL`. -/
def title_expr (cols : List String) (pfx : String) : String :=
  if pfx ++ "_title" ∈ cols then pfx ++ "_title"
  else if pfx ++ "_name" ∈ cols then pfx ++ "_name"
  else if pfx ++ "_id" ∈ cols then "CAST(" ++ pfx ++ "_id AS VARCHAR)"
  else "NULL"

/-- The five builder steps of `build_gold_specifics.py`. -/
inductive BuilderStep
  | top10_by_year
  | all_time_top
  | trending_mom
  | edges_6m
  | referrers_6m
deriving DecidableEq

/-- The title prefixes each builder resolves, in source order
(lines 117-121, 170-174, 236-239, 200-205, 289-294). -/
def neededPrefixes : BuilderStep → List String
  | .top10_by_year => ["curr"]
  | .all_time_top => ["curr"]
  | .trending_mom => ["curr"]
  | .edges_6m => ["prev", "curr"]
  | .referrers_6m => ["curr", "prev"]

/-- The outcome of a builder step's column-resolution guard. -/
inductive StepOutcome
  | written (exprs : List String)
  | warnSkipped
deriving DecidableEq

/-- Each builder's guard (e.g. lines 117-121): it resolves the title
expression for every prefix it needs and, when any of them is the literal
`NULL`, prints a warning and returns without writing — no exception. -/
def runBuilderStep (cols : List String) (b : BuilderStep) : StepOutcome :=
  let es := (neededPrefixes b).map (title_expr cols)
  if es.any (fun e => e = "NULL") then .warnSkipped else .written es

/-- C9: in every Derived Insights builder step, the title expression is
resolved by probing `<pfx>_title`, else `<pfx>_name`, else
`CAST(<pfx>_id AS VARCHAR)`, in that order; if none of the three columns
exists, the step resolves to `NULL` and the builder skips the step with a
warning instead of crashing. -/
theorem C9_column_resolution (cols : List String) (pfx : String) (b : BuilderStep) :
    (pfx ++ "_title" ∈ cols → title_expr cols pfx = pfx ++ "_title")
    ∧ (pfx ++ "_title" ∉ cols → pfx ++ "_name" ∈ cols →
        title_expr cols pfx = pfx ++ "_name")
    ∧ (pfx ++ "_title" ∉ cols → pfx ++ "_name" ∉ cols → pfx ++ "_id" ∈ cols →
        title_expr cols pfx = "CAST(" ++ pfx ++ "_id AS VARCHAR)")
    ∧ (pfx ++ "_title" ∉ cols → pfx ++ "_name" ∉ cols → pfx ++ "_id" ∉ cols →
        title_expr cols pfx = "NULL")
    ∧ (runBuilderStep cols b = .warnSkipped
        ↔ ∃ p ∈ neededPrefixes b, title_expr cols p = "NULL") := by
  refine ⟨?_, ?_, ?_, ?_, ?_⟩
  · intro h
    simp [title_expr, h]
  · intro h1 h2
    simp [title_expr, h1, h2]
  · intro h1 h2 h3
    simp [title_expr, h1, h2, h3]
  · intro h1 h2 h3
    simp [title_expr, h1, h2, h3]
  · unfold runBuilderStep
    by_cases h : ((neededPrefixes b).map (title_expr cols)).any (fun e => e = "NULL")
    · rw [if_pos h]
      simp only [List.any_eq_true, List.mem_map, decide_eq_true_eq] at h
      rcases h with ⟨e, ⟨p, hp, rfl⟩, he⟩
      simp only [true_iff]
      exact ⟨p, hp, he⟩
    · rw [if_neg h]
      simp only [List.any_eq_true, List.mem_map, decide_eq_true_eq] at h
      constructor
      · intro hc
        cases hc
      · intro ⟨p, hp, hnull⟩
        exact absurd ⟨title_expr cols p, ⟨p, hp, rfl⟩, hnull⟩ h

/-- Witness for C9 at concrete column sets. -/
theorem C9_column_resolution_witness :
    title_expr ["curr_name", "total_clicks"] "curr" = "curr_name"
    ∧ runBuilderStep ["total_clicks"] BuilderStep.top10_by_year = StepOutcome.warnSkipped :=
  ⟨(C9_column_resolution ["curr_name", "total_clicks"] "curr"
      BuilderStep.top10_by_year).2.1 (by decide) (by decide),
   (C9_column_resolution ["total_clicks"] "curr" BuilderStep.top10_by_year).2.2.2.2.mpr
     ⟨"curr", by decide, by decide⟩⟩

-- ------------------------------------------------------------------
-- `pick_latest_month` (lines 70-76 of `aggregate_gold.py`)
-- ------------------------------------------------------------------

/-- Python tuple comparison on `(year, month)` pairs. -/
def ymPairLt (a b : Int × Int) : Prop := a.1 < b.1 ∨ (a.1 = b.1 ∧ a.2 < b.2)

instance : DecidableRel ymPairLt := fun a b =>
  inferInstanceAs (Decidable (a.1 < b.1 ∨ (a.1 = b.1 ∧ a.2 < b.2)))

/-- One step of Python's `max`: replace the best-so-far only on a strict
increase. -/
def pyMaxStep (a b : Int × Int) : Int × Int := if ymPairLt a b then b else a

/-- Python's `max` over a list of `(year, month)` tuples (the empty case
is unreachable: the caller returns early on an empty file list). -/
def pyMax : List (Int × Int) → Int × Int
  | [] => (0, 0)
  | x :: xs => xs.foldl pyMaxStep x

/-- Sort key of line 76: the language component of the path. -/
def langLeF (a b : PartFile) : Prop := strLe a.lang b.lang

instance : DecidableRel langLeF := fun a b =>
  inferInstanceAs (Decidable (strLe a.lang b.lang))

instance : IsTotal PartFile langLeF := ⟨fun a b => le_total a.lang.data b.lang.data⟩

instance : IsTrans PartFile langLeF := ⟨fun _ _ _ h1 h2 => le_trans h1 h2⟩

/-- `pick_latest_month` (lines 70-76): keep the files whose `(year, month)`
equals the maximum over all files, sorted by language. -/
def pick_latest_month (files : List PartFile) : List PartFile :=
  if files.isEmpty then files
  else
    List.insertionSort langLeF
      (files.filter (fun f => (f.year, f.month) = pyMax (files.map (fun g => (g.year, g.month)))))

theorem ymPairLt_irrefl (a : Int × Int) : ¬ ymPairLt a a := by
  obtain ⟨a1, a2⟩ := a
  unfold ymPairLt
  simp only
  omega

theorem ymNotLt_trans {m b c : Int × Int}
    (h1 : ¬ ymPairLt m b) (h2 : ¬ ymPairLt b c) : ¬ ymPairLt m c := by
  obtain ⟨m1, m2⟩ := m
  obtain ⟨b1, b2⟩ := b
  obtain ⟨c1, c2⟩ := c
  unfold ymPairLt at h1 h2 ⊢
  simp only at h1 h2 ⊢
  omega

theorem pyMaxStep_ub (a x : Int × Int) :
    ¬ ymPairLt (pyMaxStep a x) a ∧ ¬ ymPairLt (pyMaxStep a x) x := by
  unfold pyMaxStep
  by_cases h : ymPairLt a x
  · rw [if_pos h]
    obtain ⟨a1, a2⟩ := a
    obtain ⟨x1, x2⟩ := x
    unfold ymPairLt at h ⊢
    simp only at h ⊢
    constructor
    · omega
    · omega
  · rw [if_neg h]
    exact ⟨ymPairLt_irrefl a, h⟩

theorem pyMaxStep_cases (a x : Int × Int) : pyMaxStep a x = a ∨ pyMaxStep a x = x := by
  unfold pyMaxStep
  by_cases h : ymPairLt a x
  · rw [if_pos h]; right; rfl
  · rw [if_neg h]; left; rfl

theorem foldl_pyMaxStep_spec :
    ∀ (xs : List (Int × Int)) (a : Int × Int),
    (xs.foldl pyMaxStep a = a ∨ xs.foldl pyMaxStep a ∈ xs)
    ∧ ¬ ymPairLt (xs.foldl pyMaxStep a) a
    ∧ ∀ p ∈ xs, ¬ ymPairLt (xs.foldl pyMaxStep a) p := by
  intro xs
  induction xs with
  | nil =>
    intro a
    refine ⟨Or.inl rfl, ymPairLt_irrefl a, ?_⟩
    intro p hp
    cases hp
  | cons x xs ih =>
    intro a
    rw [List.foldl_cons]
    rcases ih (pyMaxStep a x) with ⟨hmem, hinit, hub⟩
    have hnot_a : ¬ ymPairLt (xs.foldl pyMaxStep (pyMaxStep a x)) a :=
      ymNotLt_trans hinit (pyMaxStep_ub a x).1
    have hnot_x : ¬ ymPairLt (xs.foldl pyMaxStep (pyMaxStep a x)) x :=
      ymNotLt_trans hinit (pyMaxStep_ub a x).2
    refine ⟨?_, hnot_a, ?_⟩
    · rcases hmem with h | h
      · rcases pyMaxStep_cases a x with he | he
        · left; rw [h, he]
        · right; rw [h, he]; exact List.mem_cons_self x xs
      · right; exact List.mem_cons_of_mem x h
    · intro p hp
      rcases List.mem_cons.mp hp with rfl | hp'
      · exact hnot_x
      · exact hub p hp'

/-- The maximum Python computes is attained and is an upper bound. -/
theorem pyMax_spec (ys : List (Int × Int)) (hne : ys ≠ []) :
    pyMax ys ∈ ys ∧ ∀ p ∈ ys, ¬ ymPairLt (pyMax ys) p := by
  cases ys with
  | nil => exact absurd rfl hne
  | cons x xs =>
    rcases foldl_pyMaxStep_spec xs x with ⟨hmem, hinit, hub⟩
    have hpy : pyMax (x :: xs) = xs.foldl pyMaxStep x := rfl
    rw [hpy]
    constructor
    · rcases hmem with h | h
      · rw [h]; exact List.mem_cons_self x xs
      · exact List.mem_cons_of_mem x h
    · intro p hp
      rcases List.mem_cons.mp hp with rfl | hp'
      · exact hinit
      · exact hub p hp'

/-- C10: with the latest-month filter on, the retained partitions are
exactly those whose `(year, month)` equals the maximum `(year, month)`
over all matched partitions of all languages (a maximum that is attained
and never exceeded), sorted by language; a language all of whose
partitions are strictly older than that maximum contributes nothing. -/
theorem C10_latest_month (files : List PartFile) (hne : files ≠ []) :
    (∀ f, f ∈ pick_latest_month files
      ↔ f ∈ files ∧ (f.year, f.month) = pyMax (files.map (fun g => (g.year, g.month))))
    ∧ pyMax (files.map (fun g => (g.year, g.month))) ∈ files.map (fun g => (g.year, g.month))
    ∧ (∀ p ∈ files.map (fun g => (g.year, g.month)),
        ¬ ymPairLt (pyMax (files.map (fun g => (g.year, g.month)))) p)
    ∧ List.Sorted langLeF (pick_latest_month files)
    ∧ ∀ L : String,
        (∀ f ∈ files, f.lang = L →
          ymPairLt (f.year, f.month) (pyMax (files.map (fun g => (g.year, g.month))))) →
        ∀ f ∈ pick_latest_month files, f.lang ≠ L := by
  have hmapne : files.map (fun g => (g.year, g.month)) ≠ [] := by
    intro h
    exact hne (List.map_eq_nil_iff.mp h)
  have hspec := pyMax_spec _ hmapne
  have hpick : pick_latest_month files
      = List.insertionSort langLeF
          (files.filter
            (fun f => (f.year, f.month) = pyMax (files.map (fun g => (g.year, g.month))))) := by
    unfold pick_latest_month
    rw [if_neg (by simpa using hne)]
  have hmem : ∀ f, f ∈ pick_latest_month files
      ↔ f ∈ files ∧ (f.year, f.month) = pyMax (files.map (fun g => (g.year, g.month))) := by
    intro f
    rw [hpick, (List.perm_insertionSort langLeF _).mem_iff, List.mem_filter]
    simp
  refine ⟨hmem, hspec.1, hspec.2, ?_, ?_⟩
  · rw [hpick]
    exact List.sorted_insertionSort langLeF _
  · intro L hL f hf hfl
    rcases (hmem f).mp hf with ⟨hfin, hfeq⟩
    have hlt := hL f hfin hfl
    rw [hfeq] at hlt
    obtain ⟨m1, m2⟩ := pyMax (files.map (fun g => (g.year, g.month)))
    unfold ymPairLt at hlt
    simp only at hlt
    omega

/-- Witness for C10 at a concrete file list with two languages. -/
theorem C10_latest_month_witness :
    PartFile.mk "en" 2024 2 ∈
      pick_latest_month [PartFile.mk "en" 2024 2, PartFile.mk "de" 2024 1]
    ∧ ∀ f ∈ pick_latest_month [PartFile.mk "en" 2024 2, PartFile.mk "de" 2024 1],
        f.lang ≠ "de" := by
  have h := C10_latest_month [PartFile.mk "en" 2024 2, PartFile.mk "de" 2024 1] (by decide)
  constructor
  · exact (h.1 (PartFile.mk "en" 2024 2)).mpr (by decide)
  · exact h.2.2.2.2 "de" (by decide)

end Gold
